import Mathlib

/-!
# A shallow embedding of the render-engine build pipeline

This file models the core of the static-site generator found in
`render_engine/site.py` and `render_engine/collection.py`:

* content fingerprinting (`hash_content`) and the persisted fingerprint cache,
* the skip/rewrite decision (`Site._is_unique`),
* the per-page output writer with multi-route replication (`Site._render_output`),
* collection page enumeration (`Collection.pages`) and archive building
  (`Collection.archive`),
* subcollection expansion ordering (`Site._render_subcollections`),
* the render driver (`Site.render`) including the strict full-rebuild path.

Strings are modelled as `List Char`, the filesystem as an association list from
paths (lists of path components) to file contents.  External collaborators kept
opaque by the source (the template engine, the SHA-1 digest, the `Page`
construction living in `page.py`) are parameters of the definitions, constrained
only by the properties the source relies on (e.g. a hex digest contains no
newline).
-/

namespace RenderEngine

/-- Strings are lists of characters. -/
abbrev Str := List Char

/-- Shorthand for string literals. -/
def S (s : String) : Str := s.data

/-- Python string comparison: strict lexicographic order on code points. -/
def strLt : Str → Str → Bool
  | [], [] => false
  | [], _ :: _ => true
  | _ :: _, [] => false
  | a :: as, b :: bs => if a < b then true else if b < a then false else strLt as bs

/-! ## A model of Python's stable sort

Python's `sorted(iterable, key=k, reverse=r)` is a stable sort: ascending by
`k` when `r` is false, descending when `r` is true, with elements of equal key
kept in input order in both directions.  We model it by a stable insertion
sort: `insertL` places an element coming from the *front* of the input before
the first element it is strictly smaller than, hence after all equal keys. -/

/-- Insert `x` (which precedes every element of the list in the input order)
into an already sorted list: `x` passes over exactly the elements strictly
below it, so it lands after every element of equal key. -/
def insertL (lt : α → α → Bool) (x : α) : List α → List α
  | [] => [x]
  | y :: ys => if lt y x then y :: insertL lt x ys else x :: y :: ys

/-- Stable insertion sort: ascending by `lt`, ties keep input order. -/
def isort (lt : α → α → Bool) : List α → List α
  | [] => []
  | x :: xs => insertL lt x (isort lt xs)

/-- Python's `sorted(l, key=key, reverse=rev)` where keys are compared by
`kLt`: `reverse=True` flips every comparison but keeps the sort stable. -/
def pySorted (kLt : κ → κ → Bool) (key : α → κ) (rev : Bool) (l : List α) : List α :=
  isort (fun a b => if rev then kLt (key b) (key a) else kLt (key a) (key b)) l

/-! ## Path and string helpers used by `Site._render_output` -/

/-- Python `route.strip("/")`: remove every leading and trailing `'/'`. -/
def stripSlashes (s : Str) : Str :=
  ((s.dropWhile (· = '/')).reverse.dropWhile (· = '/')).reverse

/-- Index of the last `'.'` of a name, if any. -/
def lastDotIdx (s : Str) : Option Nat :=
  ((List.range s.length).filter (fun i => s.get? i = some '.')).getLast?

/-- Python `pathlib.Path(name).with_suffix(ext)`: replace the name's suffix by `ext`.
A name has a suffix only when its last `'.'` is neither the first nor the last
character (pathlib: hidden files and trailing dots carry no suffix). -/
def withSuffix (name ext : Str) : Str :=
  match lastDotIdx name with
  | some i => if 0 < i ∧ i + 1 < name.length then name.take i ++ ext else name ++ ext
  | none => name ++ ext

/-! ## Pages

`page.py` is not part of the sources under inspection; a `Page` here carries
exactly the attributes the site/collection code reads or writes.  The `pages`
attribute that `Collection.archive` sets on the archive page (its children)
never nests further in any modelled flow, so children are `PageCore`s and the
archive's own `pages` attribute lives one level up in `Page`. -/

structure PageCore where
  slug : Str
  routes : List Str
  template : Str
  base_content : Option Str
  always_refresh : Bool
  title : Str
deriving DecidableEq, Repr

structure Page where
  core : PageCore
  /-- the `pages` attribute `Collection.archive` assigns (empty on ordinary pages) -/
  pages : List PageCore
deriving DecidableEq, Repr

/-- Lift a plain content page into a routed page (no children). -/
def Page.ofCore (c : PageCore) : Page := ⟨c, []⟩

/-! ## Content fingerprints

`hash_content` feeds `getattr(route, 'base_content', '')` through SHA-1 and
returns `hexdigest() + '\n'`.  The digest itself is an external primitive; it
enters as a parameter `H`, and theorems that need it assume only what the
source relies on: a hex digest is 40 lowercase hexadecimal characters. -/

/-- Well-formedness of the digest: `H s` is a hex digest: 40 characters, all lowercase hex. -/
def HexDigest (H : Str → Str) : Prop :=
  ∀ s, (H s).length = 40 ∧ ∀ c ∈ H s, c ∈ S "0123456789abcdef"

/-- The fingerprint function `hash_content`: SHA-1 of the page's `base_content` (missing attribute
defaults to the empty string), hex-encoded, with a trailing newline. -/
def hash_content (H : Str → Str) (page : Page) : Str :=
  H (page.core.base_content.getD []) ++ ['\n']

/-! ## The filesystem model

Files only (directory creation has no observable effect in the modelled
behaviour): an association list from paths — lists of path components — to
contents, most recent write first. -/

abbrev FsPath := List Str

abbrev FS := List (FsPath × Str)

def fsLookup : FS → FsPath → Option Str
  | [], _ => none
  | e :: rest, p => if e.1 = p then some e.2 else fsLookup rest p

/-- File creation (`write_text`): the new entry shadows any older one. -/
def fsWrite (fs : FS) (p : FsPath) (c : Str) : FS := (p, c) :: fs

/-- Tree removal (`shutil.rmtree(root)`): drop every file under `root`. -/
def fsRmtree (fs : FS) (root : FsPath) : FS :=
  fs.filter (fun e => ¬ root <+: e.1)

/-- File copy (`shutil.copy(src, dst)`) (`src` exists whenever the source calls it). -/
def fsCopy (fs : FS) (src dst : FsPath) : FS :=
  match fsLookup fs src with
  | some c => fsWrite fs dst c
  | none => fs

/-! ## The persisted cache

`Site.__init__` loads `set(self.cache_file.read_text().splitlines(True))` when
the cache file exists, otherwise the empty set; `Site.render` finishes with
`f.write(''.join([x for x in self.hashes]))`.  Python's `splitlines` also
recognises `\r` and rarer Unicode boundaries; fingerprints are hexadecimal
characters plus the terminating `'\n'`, so only `'\n'` is modelled. -/

def splitlinesAux (acc : Str) : Str → List Str
  | [] => if acc = [] then [] else [acc.reverse]
  | c :: rest =>
    if c = '\n' then (acc.reverse ++ ['\n']) :: splitlinesAux [] rest
    else splitlinesAux (c :: acc) rest

/-- Python `str.splitlines(keepends=True)` restricted to `'\n'` boundaries. -/
def splitlinesKeepends (s : Str) : List Str := splitlinesAux [] s

/-- The text `Site.render` writes to the cache file: `''.join(hashes)`.
The in-memory set is modelled as a list in one arbitrary iteration order. -/
def cacheFileText (hashes : List Str) : Str := hashes.flatten

/-- Loading the cache at `Site.__init__`: a missing file yields the empty set,
otherwise the set of lines with their line ends kept. -/
def loadHashes : Option Str → List Str
  | none => []
  | some text => (splitlinesKeepends text).dedup

/-- Python `set.add` on the in-memory fingerprint set. -/
def addHash (hashes : List Str) (h : Str) : List Str :=
  if h ∈ hashes then hashes else h :: hashes

/-- A string shaped like one cache record: `'\n'`-terminated with no interior
newline.  Every `hash_content` result has this shape. -/
def NlRecord (h : Str) : Prop :=
  ∃ body, h = body ++ ['\n'] ∧ '\n' ∉ body

/-! ## Collections -/

/-- The configuration attributes of a `Collection` class that the modelled
code paths read.  `content_path_exists` is `Path(self.content_path).exists()`
and `discovered` the file paths the include patterns glob under it (the
content source is external to the program); `className` is
`self.__class__.__name__`; `feeds` the feed pages `register_feed` appends
(feed objects come from `feeds.py`, outside the sources — their slug/title/link
composition is glue the claims do not touch, so they enter as given pages). -/
structure CollectionCfg where
  content_path_exists : Bool
  discovered : List Str
  routes : List Str
  template : Str
  has_archive : Bool
  archive_template : Str
  archive_slug : Str
  archive_reverse : Bool
  className : Str
  feeds : List Page
deriving Repr

/-- The view `Collection.pages`.  `_pages = self.content_items` aliases the stored
mutable list, so the appends mutate `content_items` itself; the function
returns the produced list together with the new `content_items` state.  `mkP`
stands for `self.page_content_type(content_path=filepath)` (constructed in
`page.py`, outside the sources); the collection then overrides the new page's
routes and template. -/
def Collection.pages (mkP : Str → PageCore) (cfg : CollectionCfg)
    (content_items : List PageCore) : List PageCore × List PageCore :=
  if cfg.content_path_exists = false then
    (content_items, content_items)
  else
    let found := cfg.discovered.map
      (fun fp => { mkP fp with routes := cfg.routes, template := cfg.template })
    (content_items ++ found, content_items ++ found)

/-- The default sort key `Collection.archive_default_sort`: the sort key is the page's slug. -/
def archive_default_sort (p : PageCore) : Str := p.slug

/-- The property `Collection.archive`.  Builds the one archive page: a fresh page from
`archive_content_type(no_index=True)` (constructed in `page.py`, outside the
sources — passed in as `base`) whose template, slug and title come from the
collection's archive configuration, and whose `pages` attribute is the result
of accessing `self.pages` sorted by `archive_default_sort` in the direction
given by `archive_reverse` (Python's `sorted`: stable, `reverse` flips the
comparisons).  The page's `engine` is set to `""`, which is falsy, so the site
default engine still applies; accessing `self.pages` threads the
`content_items` state. -/
def Collection.archive (mkP : Str → PageCore) (base : PageCore) (cfg : CollectionCfg)
    (content_items : List PageCore) : Page × List PageCore :=
  let r := Collection.pages mkP cfg content_items
  ({ core := { base with
        template := cfg.archive_template
        slug := cfg.archive_slug
        title := cfg.className }
    , pages := pySorted strLt archive_default_sort cfg.archive_reverse r.1 }, r.2)

/-- Registration (`Site.register_collection`): append every page of `collection.pages` to the
route registry, then — when `has_archive` — the archive, then the feed pages.
Iterating `for archive in collection.archive` relies on a `Page.__iter__`
defined in `page.py`, outside the sources; modelled from the spec, which says
registration appends the collection's one archive page.  The
`self.collections` title-keyed dict is bookkeeping the claims do not read. -/
def Site.register_collection (mkP : Str → PageCore) (base : PageCore)
    (cfg : CollectionCfg) (content_items : List PageCore) (routes : List Page) :
    List Page × List PageCore :=
  let r := Collection.pages mkP cfg content_items
  let routes₁ := routes ++ r.1.map Page.ofCore
  if cfg.has_archive then
    let a := Collection.archive mkP base cfg r.2
    (routes₁ ++ [a.1] ++ cfg.feeds, a.2)
  else
    (routes₁ ++ cfg.feeds, r.2)

/-! ## Subcollections -/

/-- Modelled from the spec: `Collection.get_subcollections` is not among the
sources (only its caller `Site._render_subcollections` is).  Per the spec, a
subcollection of a grouping is a synthetic collection holding exactly the
member pages carrying one attribute value, titled by that value, with archive
generation always enabled. -/
structure SubCollection where
  title : Str
  pages : List PageCore
deriving DecidableEq, Repr

/-- The collection configuration of the synthetic `SubCollection` class built
by `Collection.from_subcollection`: `content_items` seeded with the member
pages, `has_archive = True`, everything else inherited from `Collection`
(class name `SubCollection`); its content directory holds nothing of its own,
so `pages` returns exactly the members. -/
def SubCollection.cfg (_sc : SubCollection) : CollectionCfg :=
  { content_path_exists := false
    discovered := []
    routes := [[]]
    template := S "page.html"
    has_archive := true
    archive_template := S "archive.html"
    archive_slug := S "all_posts"
    archive_reverse := false
    className := S "SubCollection"
    feeds := [] }

/-- The archive page of a subcollection: `Collection.archive` over the
synthetic collection seeded with the member pages. -/
def SubCollection.archivePage (mkP : Str → PageCore) (base : PageCore)
    (sc : SubCollection) : Page :=
  (Collection.archive mkP base sc.cfg sc.pages).1

/-- The sort key `lambda x: (len(x.pages), x.title)`. -/
def subKey (sc : SubCollection) : Nat × Str := (sc.pages.length, sc.title)

/-- Python comparison of `(int, str)` tuples: lexicographic. -/
def tupLt (a b : Nat × Str) : Bool :=
  if a.1 < b.1 then true else if b.1 < a.1 then false else strLt a.2 b.2

/-- One grouping's subcollections as `Site._render_subcollections` orders
them: `sorted(group, key=lambda x: (len(x.pages), x.title), reverse=True)`. -/
def sortSubcollections (g : List SubCollection) : List SubCollection :=
  pySorted tupLt subKey true g

/-- Subcollection expansion (`Site._render_subcollections`): for every registered collection that
declares subcollection grouping keys, sort each grouping's subcollections and
append each one's archive page, in sorted order, to the route registry.
`groups` lists, per registered collection and grouping key, the value
`get_subcollections()` yields for that key; iterating
`for archive in subcollection.archive` is, as in registration, modelled from
the spec as the single archive page.  The `self.subcollections` dict the loop
also fills is bookkeeping nothing later reads. -/
def Site.render_subcollections (mkP : Str → PageCore) (base : PageCore)
    (groups : List (List SubCollection)) (routes : List Page) : List Page :=
  groups.foldl
    (fun acc g => acc ++ (sortSubcollections g).map (SubCollection.archivePage mkP base))
    routes

/-! ## The render pass -/

/-- The skip/rewrite decision (`Site._is_unique`): write when the page is always-refresh, or the output
file does not exist, or the fingerprint is not in the in-memory cache. -/
def Site.is_unique (H : Str → Str) (hashes : List Str) (fs : FS)
    (filepath : FsPath) (page : Page) : Bool :=
  if page.core.always_refresh then true
  else if (fsLookup fs filepath).isSome = false then true
  else decide (hash_content H page ∉ hashes)

/-- Mutable state threaded through the render loop: the output filesystem, the
in-memory fingerprint set, and a count of render-engine invocations (each
`engine.render` call increments it — the engine is external, so the count is
the one observable of how often it ran). -/
structure RState where
  fs : FS
  hashes : List Str
  renderCalls : Nat
deriving Repr

/-- Output directory for a page's first route:
`self.output_path.joinpath(page.routes[0].strip("/"))`.  `routes` is non-empty
by the Page invariant (the source would raise on `routes[0]` otherwise). -/
def routeDir (output_path : FsPath) (page : Page) : FsPath :=
  output_path ++ [stripSlashes (page.core.routes.headD [])]

/-- The filename `Path(page.slug).with_suffix(engine.extension)`. -/
def outFilename (ext : Str) (page : Page) : Str := withSuffix page.core.slug ext

/-- The canonical output file path of a page. -/
def outFilepath (output_path : FsPath) (ext : Str) (page : Page) : FsPath :=
  routeDir output_path page ++ [outFilename ext page]

/-- Every output path a page writes to, one per declared route. -/
def pagePaths (output_path : FsPath) (ext : Str) (page : Page) : List FsPath :=
  page.core.routes.map (fun r => output_path ++ [stripSlashes r] ++ [outFilename ext page])

/-- The writer `Site._render_output`.  Returns the new state and whether the page was
written (the source's `"{filename} written"` vs `"{filename} skipped"`
messages).  `render` is the external engine's `render(page, **template_attrs)`
— the merged context from `get_public_attributes` is runtime reflection over
site and page and is absorbed into this opaque parameter.  A page-level
`engine` attribute is honoured only when truthy; archive pages set it to `""`
(falsy) and collection pages never set it, so the site default engine
`(render, ext)` applies to every modelled page.  `mkdir(exist_ok=True)` has no
observable effect in the file model. -/
def Site.render_output (H : Str → Str) (render : Page → Str) (ext : Str)
    (output_path : FsPath) (st : RState) (page : Page) : RState × Bool :=
  let filename := outFilename ext page
  let filepath := routeDir output_path page ++ [filename]
  if Site.is_unique H st.hashes st.fs filepath page then
    let content := render page
    let hashes := if page.core.always_refresh then st.hashes
                  else addHash st.hashes (hash_content H page)
    let fs₁ := fsWrite st.fs filepath content
    let fs₂ :=
      if 1 < page.core.routes.length then
        (page.core.routes.drop 1).foldl
          (fun fs r => fsCopy fs filepath (output_path ++ [stripSlashes r] ++ [filename]))
          fs₁
      else fs₁
    ({ fs := fs₂, hashes := hashes, renderCalls := st.renderCalls + 1 }, true)
  else
    (st, false)

/-- The render loop over the route registry.  Verbose mode only changes the
progress-bar text; both branches call `_render_output` on every route in
order. -/
def Site.renderLoop (H : Str → Str) (render : Page → Str) (ext : Str)
    (output_path : FsPath) (st : RState) : List Page → RState × List Bool
  | [] => (st, [])
  | page :: rest =>
    let r := Site.render_output H render ext output_path st page
    let rest' := Site.renderLoop H render ext output_path r.1 rest
    (rest'.1, r.2 :: rest'.2)

/-- The site attributes `render` reads.  `strictAttr` is the class attribute
`Site.strict`; `static_is_dir` is `Path(self.static_path).is_dir()` and
`staticFiles` the destination entries `shutil.copytree` places under
`output_path/static_path` (the static tree is an external input). -/
structure SiteCfg where
  output_path : FsPath
  cache_file : FsPath
  strictAttr : Bool
  static_is_dir : Bool
  staticFiles : List (FsPath × Str)

/-- What a render pass leaves behind. -/
structure RenderResult where
  routes : List Page
  fs : FS
  hashes : List Str
  written : List Bool
  renderCalls : Nat

/-- The driver `Site.render(verbose, dry_run, strict)`.  `dry_run` forces `strict` off
(and verbose on, which is presentation only); when `self.strict or strict`,
the output tree is removed and the in-memory cache cleared; the static tree is
copied in when present; `_render_subcollections` appends the subcollection
archives; the loop renders every route; finally the cache file is rewritten
with `''.join(self.hashes)`. -/
def Site.render (H : Str → Str) (render : Page → Str) (ext : Str)
    (mkP : Str → PageCore) (base : PageCore) (site : SiteCfg)
    (groups : List (List SubCollection)) (routes0 : List Page)
    (fs0 : FS) (hashes0 : List Str) (dry_run strict : Bool) : RenderResult :=
  let strict := if dry_run then false else strict
  let fs1 := if site.strictAttr || strict then fsRmtree fs0 site.output_path else fs0
  let hashes1 := if site.strictAttr || strict then [] else hashes0
  let fs2 := if site.static_is_dir then
      site.staticFiles.foldl (fun fs e => fsWrite fs e.1 e.2) fs1
    else fs1
  let routes1 := Site.render_subcollections mkP base groups routes0
  let r := Site.renderLoop H render ext site.output_path ⟨fs2, hashes1, 0⟩ routes1
  { routes := routes1
    fs := fsWrite r.1.fs site.cache_file (cacheFileText r.1.hashes)
    hashes := r.1.hashes
    written := r.2
    renderCalls := r.1.renderCalls }

/-! ## Disjointness of page outputs, and concrete instantiations

`PathsDisjoint` states two pages write to no common output path — the data
model's invariant that slug plus route prefix is unique.  The concrete values
below instantiate the external parameters (digest, engine, page construction)
when evaluating the model on explicit inputs. -/

/-- Two pages write to no common output path. -/
abbrev PathsDisjoint (output_path : FsPath) (ext : Str) (a b : Page) : Prop :=
  ∀ p ∈ pagePaths output_path ext a, p ∉ pagePaths output_path ext b

/-- A digest for concrete evaluation: constant 40 `'a'`s. -/
def H0 : Str → Str := fun _ => List.replicate 40 'a'

/-- A render engine for concrete evaluation: the markup is the page's slug. -/
def render0 : Page → Str := fun p => p.core.slug

/-- A page constructor (`page_content_type(content_path=filepath)`) for
concrete evaluation: the slug is the file path, everything else default. -/
def mkP0 : Str → PageCore :=
  fun fp => { slug := fp, routes := [[]], template := [], base_content := none,
              always_refresh := false, title := [] }

/-- A default-constructed page (`archive_content_type(no_index=True)`). -/
def base0 : PageCore :=
  { slug := [], routes := [[]], template := [], base_content := none,
    always_refresh := false, title := [] }

/-- A content page with a given slug, for concrete examples. -/
def pc (slug : String) : PageCore :=
  { slug := S slug, routes := [[]], template := [], base_content := none,
    always_refresh := false, title := [] }

/-- A collection over an existing content directory whose files produce pages
with slugs `c`, `a`, `b` — the spec's archive-ordering example. -/
def cfgCAB : CollectionCfg :=
  { content_path_exists := true
    discovered := [S "c", S "a", S "b"]
    routes := [[]]
    template := S "page.html"
    has_archive := true
    archive_template := S "archive.html"
    archive_slug := S "all_posts"
    archive_reverse := false
    className := S "Blog"
    feeds := [] }

/-- A collection whose content directory does not exist but which has archive
generation enabled. -/
def cfgMissingArchive : CollectionCfg :=
  { content_path_exists := false
    discovered := []
    routes := [[]]
    template := S "page.html"
    has_archive := true
    archive_template := S "archive.html"
    archive_slug := S "all_posts"
    archive_reverse := false
    className := S "Ghost"
    feeds := [] }

/-- A collection over a content directory holding a single file `a`. -/
def cfgOne : CollectionCfg :=
  { content_path_exists := true
    discovered := [S "a"]
    routes := [[]]
    template := S "page.html"
    has_archive := false
    archive_template := S "archive.html"
    archive_slug := S "all_posts"
    archive_reverse := false
    className := S "One"
    feeds := [] }


/-- An always-refresh page with two routes. -/
def pageR : Page :=
  ⟨{ slug := S "live", routes := [S "a", S "b"], template := [],
     base_content := some (S "x"), always_refresh := true, title := [] }, []⟩

/-- A cacheable page with two routes. -/
def pageN : Page :=
  ⟨{ slug := S "post", routes := [S "a", S "b"], template := [],
     base_content := some (S "y"), always_refresh := false, title := [] }, []⟩

/-- An empty render state. -/
def st0 : RState := ⟨[], [], 0⟩

/-- A collection whose content directory does not exist, default flags. -/
def cfgMissingPlain : CollectionCfg := { cfgMissingArchive with has_archive := false }

/-- A one-record fingerprint set. -/
def hs0 : List Str := [hash_content H0 (Page.ofCore base0)]

/-- A site over `output/` with no static directory. -/
def site0 : SiteCfg :=
  { output_path := [S "output"], cache_file := [S ".routes_cache"],
    strictAttr := false, static_is_dir := false, staticFiles := [] }

/-- Two registered pages with distinct output paths. -/
def routesW : List Page := [Page.ofCore (pc "one"), Page.ofCore (pc "two")]

/-- A populated output directory. -/
def fsW : FS := [([S "output", S "", S "one.html"], S "stale")]

/-- A loaded cache containing the first page's fingerprint. -/
def hashesW : List Str := [hash_content H0 (Page.ofCore (pc "one"))]

/-! ## Order lemmas for the Python sort model -/

theorem strLt_irrefl (s : Str) : strLt s s = false := by
  induction s with
  | nil => rfl
  | cons a as ih => simp [strLt, ih]

theorem strLt_trans {a b c : Str} (h₁ : strLt a b = true) (h₂ : strLt b c = true) :
    strLt a c = true := by
  induction a generalizing b c with
  | nil =>
    cases b with
    | nil => exact absurd h₁ (by simp [strLt])
    | cons y bs =>
      cases c with
      | nil => exact absurd h₂ (by simp [strLt])
      | cons z cs => simp [strLt]
  | cons x as ih =>
    cases b with
    | nil => exact absurd h₁ (by simp [strLt])
    | cons y bs =>
      cases c with
      | nil => exact absurd h₂ (by simp [strLt])
      | cons z cs =>
        rw [strLt] at h₁ h₂ ⊢
        by_cases hxy : x < y
        · rw [if_pos hxy] at h₁
          by_cases hyz : y < z
          · rw [if_pos (lt_trans hxy hyz)]
          · rw [if_neg hyz] at h₂
            by_cases hzy : z < y
            · rw [if_pos hzy] at h₂
              simp at h₂
            · have hyeq : y = z := le_antisymm (not_lt.mp hzy) (not_lt.mp hyz)
              rw [if_pos (by rw [← hyeq]; exact hxy)]
        · rw [if_neg hxy] at h₁
          by_cases hyx : y < x
          · rw [if_pos hyx] at h₁
            simp at h₁
          · rw [if_neg hyx] at h₁
            have hxeq : x = y := le_antisymm (not_lt.mp hyx) (not_lt.mp hxy)
            by_cases hyz : y < z
            · rw [if_pos (by rw [hxeq]; exact hyz)]
            · rw [if_neg hyz] at h₂
              by_cases hzy : z < y
              · rw [if_pos hzy] at h₂
                simp at h₂
              · rw [if_neg hzy] at h₂
                have hxz : ¬ x < z := by rw [hxeq]; exact hyz
                have hzx : ¬ z < x := by rw [hxeq]; exact hzy
                rw [if_neg hxz, if_neg hzx]
                exact ih h₁ h₂

theorem strLt_false_total {a b : Str} (h : strLt a b = false) :
    strLt b a = true ∨ a = b := by
  induction a generalizing b with
  | nil =>
    cases b with
    | nil => exact Or.inr rfl
    | cons y bs =>
      rw [strLt] at h
      simp at h
  | cons x as ih =>
    cases b with
    | nil => exact Or.inl (by rw [strLt])
    | cons y bs =>
      rw [strLt] at h
      by_cases hxy : x < y
      · rw [if_pos hxy] at h
        simp at h
      · rw [if_neg hxy] at h
        by_cases hyx : y < x
        · exact Or.inl (by rw [strLt, if_pos hyx])
        · rw [if_neg hyx] at h
          have hxeq : x = y := le_antisymm (not_lt.mp hyx) (not_lt.mp hxy)
          rcases ih h with h' | h'
          · refine Or.inl ?_
            rw [strLt, if_neg hyx, if_neg hxy]
            exact h'
          · exact Or.inr (by rw [hxeq, h'])

theorem perm_insertL (lt : α → α → Bool) (x : α) (l : List α) :
    List.Perm (insertL lt x l) (x :: l) := by
  induction l with
  | nil => exact List.Perm.refl _
  | cons y ys ih =>
    simp only [insertL]
    split
    · exact (ih.cons y).trans (List.Perm.swap x y ys)
    · exact List.Perm.refl _

theorem perm_isort (lt : α → α → Bool) (l : List α) : List.Perm (isort lt l) l := by
  induction l with
  | nil => exact List.Perm.refl _
  | cons x xs ih => exact (perm_insertL lt x (isort lt xs)).trans (ih.cons x)

theorem perm_pySorted (kLt : κ → κ → Bool) (key : α → κ) (rev : Bool) (l : List α) :
    List.Perm (pySorted kLt key rev l) l := perm_isort _ l

theorem mem_insertL {lt : α → α → Bool} {x z : α} {l : List α} :
    z ∈ insertL lt x l ↔ z = x ∨ z ∈ l := by
  rw [(perm_insertL lt x l).mem_iff]
  exact List.mem_cons

theorem sorted_insertL {lt : α → α → Bool}
    (hasym : ∀ a b, lt a b = true → lt b a = false)
    (hneg : ∀ a b c, lt b a = false → lt c b = false → lt c a = false)
    {x : α} {l : List α} (hl : l.Pairwise (fun a b => lt b a = false)) :
    (insertL lt x l).Pairwise (fun a b => lt b a = false) := by
  induction l with
  | nil => simp [insertL]
  | cons y ys ih =>
    rcases List.pairwise_cons.mp hl with ⟨hy, hys⟩
    simp only [insertL]
    split
    · rename_i hlt
      refine List.pairwise_cons.mpr ⟨?_, ih hys⟩
      intro z hz
      rcases mem_insertL.mp hz with rfl | hz
      · exact hasym y z hlt
      · exact hy z hz
    · rename_i hlt
      have hxy : lt y x = false := by
        cases hxx : lt y x with
        | false => rfl
        | true => exact absurd hxx hlt
      refine List.pairwise_cons.mpr ⟨?_, hl⟩
      intro z hz
      rcases List.mem_cons.mp hz with rfl | hz
      · exact hxy
      · exact hneg x y z hxy (hy z hz)

theorem sorted_isort {lt : α → α → Bool}
    (hasym : ∀ a b, lt a b = true → lt b a = false)
    (hneg : ∀ a b c, lt b a = false → lt c b = false → lt c a = false)
    (l : List α) : (isort lt l).Pairwise (fun a b => lt b a = false) := by
  induction l with
  | nil => simp [isort]
  | cons x xs ih => exact sorted_insertL hasym hneg ih

/-- Stability of `insertL`: filtering a key class commutes with insertion,
provided the comparison never separates equal keys. -/
theorem filter_insertL [DecidableEq κ] {lt : α → α → Bool} {key : α → κ}
    (hkey : ∀ a b, key a = key b → lt a b = false)
    (x : α) (l : List α) (v : κ) :
    (insertL lt x l).filter (fun a => key a = v) =
      if key x = v then x :: l.filter (fun a => key a = v)
      else l.filter (fun a => key a = v) := by
  induction l with
  | nil => by_cases hxv : key x = v <;> simp [insertL, hxv]
  | cons y ys ih =>
    simp only [insertL]
    split
    · rename_i hlt
      by_cases hxv : key x = v
      · have hyv : key y ≠ v := by
          intro hyv
          rw [hkey y x (hyv.trans hxv.symm)] at hlt
          exact Bool.noConfusion hlt
        simp [List.filter_cons, hxv, hyv, ih]
      · simp [List.filter_cons, hxv, ih]
    · by_cases hxv : key x = v <;> simp [List.filter_cons, hxv]

/-- Stability of `isort`: equal-key elements come out in input order,
expressed as commutation with filtering one key class. -/
theorem filter_isort [DecidableEq κ] {lt : α → α → Bool} {key : α → κ}
    (hkey : ∀ a b, key a = key b → lt a b = false)
    (l : List α) (v : κ) :
    (isort lt l).filter (fun a => key a = v) = l.filter (fun a => key a = v) := by
  induction l with
  | nil => rfl
  | cons x xs ih =>
    simp only [isort]
    rw [filter_insertL hkey, ih]
    by_cases hxv : key x = v <;> simp [List.filter_cons, hxv]

/-! ## Filesystem lemmas -/

theorem fsLookup_fsWrite_self (fs : FS) (p : FsPath) (c : Str) :
    fsLookup (fsWrite fs p c) p = some c := by
  simp [fsWrite, fsLookup]

theorem fsLookup_fsWrite_ne (fs : FS) (p q : FsPath) (c : Str) (h : p ≠ q) :
    fsLookup (fsWrite fs p c) q = fsLookup fs q := by
  simp [fsWrite, fsLookup, h]

theorem fsLookup_fsCopy_ne (fs : FS) (src dst p : FsPath) (h : p ≠ dst) :
    fsLookup (fsCopy fs src dst) p = fsLookup fs p := by
  unfold fsCopy
  cases fsLookup fs src with
  | none => rfl
  | some c => exact fsLookup_fsWrite_ne fs dst p c (Ne.symm h)

theorem fsLookup_fsRmtree_under (fs : FS) (root p : FsPath) (h : root <+: p) :
    fsLookup (fsRmtree fs root) p = none := by
  induction fs with
  | nil => rfl
  | cons e rest ih =>
    unfold fsRmtree at ih ⊢
    rw [List.filter_cons]
    split
    · rename_i hkeep
      have hne : e.1 ≠ p := by
        intro he
        rw [he] at hkeep
        simp [h] at hkeep
      simpa [fsLookup, hne] using ih
    · exact ih

theorem fsLookup_foldl_write_ne (entries : List (FsPath × Str)) (fs : FS) (p : FsPath)
    (hp : ∀ e ∈ entries, e.1 ≠ p) :
    fsLookup (entries.foldl (fun fs e => fsWrite fs e.1 e.2) fs) p = fsLookup fs p := by
  induction entries generalizing fs with
  | nil => rfl
  | cons e rest ih =>
    rw [List.foldl_cons, ih _ (fun e' he' => hp e' (List.mem_cons_of_mem e he'))]
    exact fsLookup_fsWrite_ne fs e.1 p e.2 (hp e (List.mem_cons_self e rest))

theorem fold_copy_keeps (src : FsPath) (dstOf : Str → FsPath) (content : Str)
    (rts : List Str) (fs : FS)
    (hsrc : fsLookup fs src = some content) (p : FsPath) (hp : fsLookup fs p = some content) :
    fsLookup (rts.foldl (fun fs r => fsCopy fs src (dstOf r)) fs) p = some content := by
  induction rts generalizing fs with
  | nil => exact hp
  | cons r rts ih =>
    rw [List.foldl_cons]
    have hstep : fsCopy fs src (dstOf r) = fsWrite fs (dstOf r) content := by
      unfold fsCopy
      rw [hsrc]
    rw [hstep]
    apply ih
    · by_cases hd : dstOf r = src
      · rw [hd]
        exact fsLookup_fsWrite_self fs src content
      · rw [fsLookup_fsWrite_ne fs (dstOf r) src content hd]
        exact hsrc
    · by_cases hd : dstOf r = p
      · rw [hd]
        exact fsLookup_fsWrite_self fs p content
      · rw [fsLookup_fsWrite_ne fs (dstOf r) p content hd]
        exact hp

theorem fold_copy_covers (src : FsPath) (dstOf : Str → FsPath) (content : Str)
    (rts : List Str) (fs : FS) (hsrc : fsLookup fs src = some content) :
    ∀ r ∈ rts, fsLookup (rts.foldl (fun fs r => fsCopy fs src (dstOf r)) fs) (dstOf r)
      = some content := by
  induction rts generalizing fs with
  | nil => intro r hr; cases hr
  | cons r₀ rts ih =>
    intro r hr
    rw [List.foldl_cons]
    have hstep : fsCopy fs src (dstOf r₀) = fsWrite fs (dstOf r₀) content := by
      unfold fsCopy
      rw [hsrc]
    rw [hstep]
    have hsrc' : fsLookup (fsWrite fs (dstOf r₀) content) src = some content := by
      by_cases hd : dstOf r₀ = src
      · rw [hd]
        exact fsLookup_fsWrite_self fs src content
      · rw [fsLookup_fsWrite_ne fs (dstOf r₀) src content hd]
        exact hsrc
    rcases List.mem_cons.mp hr with rfl | hr'
    · exact fold_copy_keeps src dstOf content rts _ hsrc' _
        (fsLookup_fsWrite_self fs (dstOf r) content)
    · exact ih _ hsrc' r hr'

theorem fold_copy_other (src : FsPath) (dstOf : Str → FsPath) (rts : List Str) (fs : FS)
    (p : FsPath) (hp : ∀ r ∈ rts, p ≠ dstOf r) :
    fsLookup (rts.foldl (fun fs r => fsCopy fs src (dstOf r)) fs) p = fsLookup fs p := by
  induction rts generalizing fs with
  | nil => rfl
  | cons r rts ih =>
    rw [List.foldl_cons, ih _ (fun r' h => hp r' (List.mem_cons_of_mem r h))]
    exact fsLookup_fsCopy_ne fs src (dstOf r) p (hp r (List.mem_cons_self r rts))

/-! ## Unfoldings of the render step -/

theorem render_output_eq (H : Str → Str) (render : Page → Str) (ext : Str)
    (output_path : FsPath) (st : RState) (page : Page) :
    Site.render_output H render ext output_path st page =
      if Site.is_unique H st.hashes st.fs (outFilepath output_path ext page) page then
        ({ fs :=
            (if 1 < page.core.routes.length then
              (page.core.routes.drop 1).foldl
                (fun fs r => fsCopy fs (outFilepath output_path ext page)
                  (output_path ++ [stripSlashes r] ++ [outFilename ext page]))
                (fsWrite st.fs (outFilepath output_path ext page) (render page))
             else fsWrite st.fs (outFilepath output_path ext page) (render page)),
           hashes := (if page.core.always_refresh then st.hashes
                      else addHash st.hashes (hash_content H page)),
           renderCalls := st.renderCalls + 1 }, true)
      else (st, false) := rfl

theorem is_unique_iff (H : Str → Str) (hashes : List Str) (fs : FS)
    (filepath : FsPath) (page : Page) :
    Site.is_unique H hashes fs filepath page = true ↔
      (page.core.always_refresh = true ∨ fsLookup fs filepath = none ∨
       hash_content H page ∉ hashes) := by
  unfold Site.is_unique
  by_cases h1 : page.core.always_refresh = true
  · rw [if_pos h1]
    simp [h1]
  · rw [if_neg h1]
    cases hl : fsLookup fs filepath with
    | none => simp [hl]
    | some c => simp [h1, hl]

/-! ## Derived order facts for the two sort keys -/

theorem strLt_asymm {a b : Str} (h : strLt a b = true) : strLt b a = false := by
  cases hc : strLt b a with
  | false => rfl
  | true =>
    have := strLt_trans h hc
    rw [strLt_irrefl] at this
    exact Bool.noConfusion this

theorem strLt_negtrans {a b c : Str} (h₁ : strLt b a = false) (h₂ : strLt c b = false) :
    strLt c a = false := by
  cases hc : strLt c a with
  | false => rfl
  | true =>
    rcases strLt_false_total h₁ with h₁' | rfl
    · rcases strLt_false_total h₂ with h₂' | rfl
      · have := strLt_trans hc h₁'
        rw [this] at h₂
        exact Bool.noConfusion h₂
      · rw [hc] at h₁
        exact Bool.noConfusion h₁
    · rw [hc] at h₂
      exact Bool.noConfusion h₂

theorem tupLt_irrefl (a : Nat × Str) : tupLt a a = false := by
  unfold tupLt
  rw [if_neg (lt_irrefl a.1), if_neg (lt_irrefl a.1)]
  exact strLt_irrefl a.2

theorem tupLt_trans {a b c : Nat × Str} (h₁ : tupLt a b = true) (h₂ : tupLt b c = true) :
    tupLt a c = true := by
  unfold tupLt at h₁ h₂ ⊢
  by_cases hab : a.1 < b.1
  · by_cases hbc : b.1 < c.1
    · rw [if_pos (lt_trans hab hbc)]
    · rw [if_neg hbc] at h₂
      by_cases hcb : c.1 < b.1
      · rw [if_pos hcb] at h₂
        exact Bool.noConfusion h₂
      · have hbeq : b.1 = c.1 := le_antisymm (not_lt.mp hcb) (not_lt.mp hbc)
        rw [if_pos (hbeq ▸ hab)]
  · rw [if_neg hab] at h₁
    by_cases hba : b.1 < a.1
    · rw [if_pos hba] at h₁
      exact Bool.noConfusion h₁
    · rw [if_neg hba] at h₁
      have haeq : a.1 = b.1 := le_antisymm (not_lt.mp hba) (not_lt.mp hab)
      by_cases hbc : b.1 < c.1
      · rw [if_pos (by rw [haeq]; exact hbc)]
      · rw [if_neg hbc] at h₂
        by_cases hcb : c.1 < b.1
        · rw [if_pos hcb] at h₂
          exact Bool.noConfusion h₂
        · rw [if_neg hcb] at h₂
          have hac : ¬ a.1 < c.1 := by rw [haeq]; exact hbc
          have hca : ¬ c.1 < a.1 := by rw [haeq]; exact hcb
          rw [if_neg hac, if_neg hca]
          exact strLt_trans h₁ h₂

theorem tupLt_false_total {a b : Nat × Str} (h : tupLt a b = false) :
    tupLt b a = true ∨ a = b := by
  unfold tupLt at h ⊢
  by_cases hab : a.1 < b.1
  · rw [if_pos hab] at h
    exact Bool.noConfusion h
  · rw [if_neg hab] at h
    by_cases hba : b.1 < a.1
    · exact Or.inl (by rw [if_pos hba])
    · rw [if_neg hba] at h
      have haeq : a.1 = b.1 := le_antisymm (not_lt.mp hba) (not_lt.mp hab)
      rcases strLt_false_total h with h' | h'
      · exact Or.inl (by rw [if_neg hba, if_neg hab]; exact h')
      · exact Or.inr (Prod.ext haeq h')

theorem tupLt_asymm {a b : Nat × Str} (h : tupLt a b = true) : tupLt b a = false := by
  cases hc : tupLt b a with
  | false => rfl
  | true =>
    have := tupLt_trans h hc
    rw [tupLt_irrefl] at this
    exact Bool.noConfusion this

theorem tupLt_negtrans {a b c : Nat × Str} (h₁ : tupLt b a = false) (h₂ : tupLt c b = false) :
    tupLt c a = false := by
  cases hc : tupLt c a with
  | false => rfl
  | true =>
    rcases tupLt_false_total h₁ with h₁' | rfl
    · rcases tupLt_false_total h₂ with h₂' | rfl
      · have := tupLt_trans hc h₁'
        rw [this] at h₂
        exact Bool.noConfusion h₂
      · rw [hc] at h₁
        exact Bool.noConfusion h₁
    · rw [hc] at h₂
      exact Bool.noConfusion h₂

/-! ## The Python sort applied with a key, ascending and descending -/

theorem sorted_pySorted_asc (kLt : κ → κ → Bool) (key : α → κ)
    (hasym : ∀ u v, kLt u v = true → kLt v u = false)
    (hneg : ∀ u v w, kLt v u = false → kLt w v = false → kLt w u = false)
    (l : List α) :
    (pySorted kLt key false l).Pairwise (fun a b => kLt (key b) (key a) = false) := by
  unfold pySorted
  simp only [if_neg Bool.false_ne_true]
  exact sorted_isort (fun a b h => hasym (key a) (key b) h)
    (fun a b c h1 h2 => hneg (key a) (key b) (key c) h1 h2) l

theorem sorted_pySorted_desc (kLt : κ → κ → Bool) (key : α → κ)
    (hasym : ∀ u v, kLt u v = true → kLt v u = false)
    (hneg : ∀ u v w, kLt v u = false → kLt w v = false → kLt w u = false)
    (l : List α) :
    (pySorted kLt key true l).Pairwise (fun a b => kLt (key a) (key b) = false) := by
  unfold pySorted
  simp only [if_pos rfl]
  exact sorted_isort (fun a b h => hasym (key b) (key a) h)
    (fun a b c h1 h2 => hneg (key c) (key b) (key a) h2 h1) l

theorem filter_pySorted [DecidableEq κ] (kLt : κ → κ → Bool) (key : α → κ)
    (hirr : ∀ v, kLt v v = false) (rev : Bool) (l : List α) (v : κ) :
    (pySorted kLt key rev l).filter (fun a => key a = v) =
      l.filter (fun a => key a = v) := by
  unfold pySorted
  apply filter_isort
  intro a b h
  cases rev <;> simp [h, hirr]

/-! ## Miscellaneous list lemmas -/

theorem foldl_append_flatten (f : β → List α) (gs : List β) (init : List α) :
    gs.foldl (fun acc g => acc ++ f g) init = init ++ (gs.map f).flatten := by
  induction gs generalizing init with
  | nil => simp
  | cons g gs ih => simp [ih, List.append_assoc]

/-! ## Splitlines round trip -/

theorem splitlinesAux_record (body : Str) (hbody : (Char.ofNat 10) ∉ body)
    (rest : Str) (acc : Str) :
    splitlinesAux acc (body ++ (Char.ofNat 10) :: rest) =
      (acc.reverse ++ body ++ [Char.ofNat 10]) :: splitlinesAux [] rest := by
  induction body generalizing acc with
  | nil => simp [splitlinesAux]
  | cons c cs ih =>
    have hc : c ≠ Char.ofNat 10 := fun h => hbody (h ▸ List.mem_cons_self c cs)
    rw [List.cons_append, splitlinesAux, if_neg hc,
      ih (fun h => hbody (List.mem_cons_of_mem c h))]
    simp

theorem splitlines_flatten_append (L : List Str) (rest : Str)
    (h : ∀ x ∈ L, NlRecord x) :
    splitlinesKeepends (L.flatten ++ rest) = L ++ splitlinesKeepends rest := by
  induction L with
  | nil => simp
  | cons x L ih =>
    obtain ⟨body, hx, hnl⟩ := h x (List.mem_cons_self x L)
    rw [List.flatten_cons, hx]
    unfold splitlinesKeepends
    rw [List.append_assoc, List.append_assoc, List.singleton_append,
      splitlinesAux_record body hnl]
    rw [show splitlinesAux [] (L.flatten ++ rest) =
          L ++ splitlinesKeepends rest from ih (fun y hy => h y (List.mem_cons_of_mem x hy))]
    simp [hx, splitlinesKeepends]

theorem splitlines_blanks (k : Nat) :
    splitlinesKeepends (List.replicate k (Char.ofNat 10)) =
      List.replicate k [Char.ofNat 10] := by
  unfold splitlinesKeepends
  induction k with
  | zero => rfl
  | succ n ih =>
    rw [List.replicate_succ, splitlinesAux, if_pos rfl, ih, List.replicate_succ]
    rfl

/-! ## Render-step lookup lemmas -/

theorem mem_addHash (hashes : List Str) (h : Str) : h ∈ addHash hashes h := by
  unfold addHash
  split
  · assumption
  · exact List.mem_cons_self h hashes

theorem render_output_lookup_canonical (H : Str → Str) (render : Page → Str) (ext : Str)
    (output_path : FsPath) (st : RState) (page : Page)
    (hu : Site.is_unique H st.hashes st.fs (outFilepath output_path ext page) page = true) :
    fsLookup (Site.render_output H render ext output_path st page).1.fs
      (outFilepath output_path ext page) = some (render page) := by
  rw [render_output_eq, if_pos hu]
  show fsLookup (if 1 < page.core.routes.length then _ else _) _ = _
  split
  · exact fold_copy_keeps (outFilepath output_path ext page)
      (fun r => output_path ++ [stripSlashes r] ++ [outFilename ext page]) (render page)
      (page.core.routes.drop 1) _
      (fsLookup_fsWrite_self st.fs (outFilepath output_path ext page) (render page)) _
      (fsLookup_fsWrite_self st.fs (outFilepath output_path ext page) (render page))
  · exact fsLookup_fsWrite_self st.fs (outFilepath output_path ext page) (render page)

theorem render_output_renderCalls (H : Str → Str) (render : Page → Str) (ext : Str)
    (output_path : FsPath) (st : RState) (page : Page)
    (hu : Site.is_unique H st.hashes st.fs (outFilepath output_path ext page) page = true) :
    (Site.render_output H render ext output_path st page).1.renderCalls
      = st.renderCalls + 1 := by
  rw [render_output_eq, if_pos hu]

/-! ## Page-path and loop lemmas -/

theorem tupLt_false_elim {a b : Nat × Str} (h : tupLt a b = false) :
    b.1 < a.1 ∨ (a.1 = b.1 ∧ strLt a.2 b.2 = false) := by
  unfold tupLt at h
  by_cases hab : a.1 < b.1
  · rw [if_pos hab] at h
    exact Bool.noConfusion h
  · rw [if_neg hab] at h
    by_cases hba : b.1 < a.1
    · exact Or.inl hba
    · rw [if_neg hba] at h
      exact Or.inr ⟨le_antisymm (not_lt.mp hba) (not_lt.mp hab), h⟩

theorem mem_pagePaths {output_path : FsPath} {ext : Str} {page : Page} {r : Str}
    (hr : r ∈ page.core.routes) :
    output_path ++ [stripSlashes r] ++ [outFilename ext page]
      ∈ pagePaths output_path ext page := by
  unfold pagePaths
  exact List.mem_map_of_mem _ hr

theorem pagePaths_under_output {output_path : FsPath} {ext : Str} {page : Page} {p : FsPath}
    (hp : p ∈ pagePaths output_path ext page) : output_path <+: p := by
  unfold pagePaths at hp
  obtain ⟨r, _, rfl⟩ := List.mem_map.mp hp
  exact ⟨[stripSlashes r] ++ [outFilename ext page], by rw [List.append_assoc]⟩

theorem render_output_lookup_other (H : Str → Str) (render : Page → Str) (ext : Str)
    (output_path : FsPath) (st : RState) (page : Page) (p : FsPath)
    (hroutes : page.core.routes ≠ [])
    (hp : p ∉ pagePaths output_path ext page) :
    fsLookup (Site.render_output H render ext output_path st page).1.fs p
      = fsLookup st.fs p := by
  obtain ⟨r₀, rts, hr⟩ : ∃ r₀ rts, page.core.routes = r₀ :: rts := by
    cases hc : page.core.routes with
    | nil => exact absurd hc hroutes
    | cons a l => exact ⟨a, l, rfl⟩
  have hcanon : outFilepath output_path ext page
      = output_path ++ [stripSlashes r₀] ++ [outFilename ext page] := by
    rw [outFilepath, routeDir, hr]
    rfl
  have hpc : p ≠ outFilepath output_path ext page := by
    intro he
    refine hp ?_
    rw [he, hcanon]
    exact mem_pagePaths (by rw [hr]; exact List.mem_cons_self r₀ rts)
  rw [render_output_eq]
  by_cases hu : Site.is_unique H st.hashes st.fs (outFilepath output_path ext page) page
      = true
  · rw [if_pos hu]
    show fsLookup (if 1 < page.core.routes.length then _ else _) p = _
    have hbase : fsLookup (fsWrite st.fs (outFilepath output_path ext page) (render page)) p
        = fsLookup st.fs p :=
      fsLookup_fsWrite_ne st.fs (outFilepath output_path ext page) p (render page)
        (Ne.symm hpc)
    split
    · rw [fold_copy_other (outFilepath output_path ext page)
        (fun r => output_path ++ [stripSlashes r] ++ [outFilename ext page])
        (page.core.routes.drop 1) _ p ?_]
      · exact hbase
      · intro r' hr' he
        have hmem : r' ∈ page.core.routes := by
          rw [hr] at hr' ⊢
          exact List.mem_cons_of_mem r₀ (by simpa using hr')
        exact hp (he ▸ mem_pagePaths hmem)
    · exact hbase
  · rw [if_neg hu]

theorem renderLoop_cons (H : Str → Str) (render : Page → Str) (ext : Str)
    (output_path : FsPath) (st : RState) (page : Page) (rest : List Page) :
    Site.renderLoop H render ext output_path st (page :: rest)
      = ((Site.renderLoop H render ext output_path
            (Site.render_output H render ext output_path st page).1 rest).1,
         (Site.render_output H render ext output_path st page).2
           :: (Site.renderLoop H render ext output_path
                (Site.render_output H render ext output_path st page).1 rest).2) := rfl

theorem renderLoop_all_written (H : Str → Str) (render : Page → Str) (ext : Str)
    (output_path : FsPath) (pages : List Page) :
    ∀ st : RState,
      (∀ pg ∈ pages, pg.core.routes ≠ []) →
      pages.Pairwise (PathsDisjoint output_path ext) →
      (∀ pg ∈ pages, ∀ p ∈ pagePaths output_path ext pg, fsLookup st.fs p = none) →
      (Site.renderLoop H render ext output_path st pages).2
          = List.replicate pages.length true ∧
      (Site.renderLoop H render ext output_path st pages).1.renderCalls
          = st.renderCalls + pages.length := by
  induction pages with
  | nil => exact fun st _ _ _ => ⟨rfl, rfl⟩
  | cons pg rest ih =>
    intro st hroutes hdisj hfree
    have hpgroutes : pg.core.routes ≠ [] := hroutes pg (List.mem_cons_self pg rest)
    obtain ⟨r₀, rts, hr⟩ : ∃ r₀ rts, pg.core.routes = r₀ :: rts := by
      cases hc : pg.core.routes with
      | nil => exact absurd hc hpgroutes
      | cons a l => exact ⟨a, l, rfl⟩
    have hcanonmem : outFilepath output_path ext pg ∈ pagePaths output_path ext pg := by
      rw [show outFilepath output_path ext pg
          = output_path ++ [stripSlashes r₀] ++ [outFilename ext pg] from
        (by rw [outFilepath, routeDir, hr]; rfl)]
      exact mem_pagePaths (by rw [hr]; exact List.mem_cons_self r₀ rts)
    have hnone : fsLookup st.fs (outFilepath output_path ext pg) = none :=
      hfree pg (List.mem_cons_self pg rest) _ hcanonmem
    have hu : Site.is_unique H st.hashes st.fs (outFilepath output_path ext pg) pg
        = true := by
      rw [is_unique_iff]
      exact Or.inr (Or.inl hnone)
    have hw : (Site.render_output H render ext output_path st pg).2 = true := by
      rw [render_output_eq, if_pos hu]
    have hdisj' := (List.pairwise_cons.mp hdisj).2
    have hhead := (List.pairwise_cons.mp hdisj).1
    have hroutes' : ∀ pg' ∈ rest, pg'.core.routes ≠ [] :=
      fun pg' h => hroutes pg' (List.mem_cons_of_mem pg h)
    have hfree' : ∀ pg' ∈ rest, ∀ p ∈ pagePaths output_path ext pg',
        fsLookup (Site.render_output H render ext output_path st pg).1.fs p = none := by
      intro pg' hpg' p hp
      rw [render_output_lookup_other H render ext output_path st pg p hpgroutes
        (fun hmem => absurd hp (hhead pg' hpg' p hmem))]
      exact hfree pg' (List.mem_cons_of_mem pg hpg') p hp
    have hrest := ih (Site.render_output H render ext output_path st pg).1
      hroutes' hdisj' hfree'
    rw [renderLoop_cons]
    constructor
    · show (Site.render_output H render ext output_path st pg).2
          :: (Site.renderLoop H render ext output_path
            (Site.render_output H render ext output_path st pg).1 rest).2
          = List.replicate (pg :: rest).length true
      rw [hw, hrest.1, List.length_cons, List.replicate_succ]
    · show (Site.renderLoop H render ext output_path
            (Site.render_output H render ext output_path st pg).1 rest).1.renderCalls
          = st.renderCalls + (pg :: rest).length
      rw [hrest.2, render_output_renderCalls H render ext output_path st pg hu,
        List.length_cons]
      omega


/-! ## Claim theorems -/

/-- C1: the render pass decides to write a page exactly when the page is
always-refresh, or its resolved output file does not exist, or the fingerprint
of its content is not a member of the in-memory cache set; otherwise the page
is skipped (`Site._is_unique` as consumed by `Site._render_output`). -/
theorem c1_write_decision (H : Str → Str) (render : Page → Str) (ext : Str)
    (output_path : FsPath) (st : RState) (page : Page) :
    (Site.render_output H render ext output_path st page).2 = true ↔
      (page.core.always_refresh = true ∨
       fsLookup st.fs (outFilepath output_path ext page) = none ∨
       hash_content H page ∉ st.hashes) := by
  rw [render_output_eq]
  by_cases h : Site.is_unique H st.hashes st.fs (outFilepath output_path ext page) page
      = true
  · rw [if_pos h]
    have := (is_unique_iff H st.hashes st.fs (outFilepath output_path ext page) page).mp h
    simpa using this
  · rw [if_neg h]
    exact iff_of_false (by simp)
      (fun hr => h ((is_unique_iff H st.hashes st.fs
        (outFilepath output_path ext page) page).mpr hr))

/-- C2: a page with `always_refresh` is rendered and written on every pass,
whatever the prior cache state and whether the output file exists, and its
fingerprint is never added to the in-memory cache set; a written page without
`always_refresh` has its fingerprint added to the cache set. -/
theorem c2_always_refresh_cache (H : Str → Str) (render : Page → Str) (ext : Str)
    (output_path : FsPath) (st : RState) (page : Page) :
    (page.core.always_refresh = true →
      (Site.render_output H render ext output_path st page).2 = true ∧
      (Site.render_output H render ext output_path st page).1.hashes = st.hashes ∧
      fsLookup (Site.render_output H render ext output_path st page).1.fs
        (outFilepath output_path ext page) = some (render page)) ∧
    (page.core.always_refresh = false →
      (Site.render_output H render ext output_path st page).2 = true →
      hash_content H page ∈ (Site.render_output H render ext output_path st page).1.hashes)
    := by
  constructor
  · intro hr
    have hu : Site.is_unique H st.hashes st.fs (outFilepath output_path ext page) page
        = true := by
      unfold Site.is_unique
      rw [if_pos hr]
    refine ⟨?_, ?_, render_output_lookup_canonical H render ext output_path st page hu⟩
    · rw [render_output_eq, if_pos hu]
    · rw [render_output_eq, if_pos hu]
      show (if page.core.always_refresh then st.hashes else _) = st.hashes
      rw [if_pos hr]
  · intro hr hw
    by_cases hu : Site.is_unique H st.hashes st.fs (outFilepath output_path ext page) page
        = true
    · rw [render_output_eq, if_pos hu]
      show hash_content H page ∈ (if page.core.always_refresh then st.hashes else _)
      rw [if_neg (by rw [hr]; exact Bool.false_ne_true)]
      exact mem_addHash st.hashes (hash_content H page)
    · rw [render_output_eq, if_neg hu] at hw
      exact absurd hw (by simp)

/-- C3: for a page with more than one route decided as needing a write, the
render engine runs exactly once, and every declared route's directory
afterwards holds the same filename with the same bytes — the rendered markup
(the first route is written, the others receive byte-for-byte copies). -/
theorem c3_multi_route_replication (H : Str → Str) (render : Page → Str) (ext : Str)
    (output_path : FsPath) (st : RState) (page : Page)
    (hlen : 1 < page.core.routes.length)
    (hu : Site.is_unique H st.hashes st.fs (outFilepath output_path ext page) page = true) :
    (Site.render_output H render ext output_path st page).1.renderCalls
      = st.renderCalls + 1 ∧
    ∀ r ∈ page.core.routes,
      fsLookup (Site.render_output H render ext output_path st page).1.fs
        (output_path ++ [stripSlashes r] ++ [outFilename ext page]) = some (render page)
    := by
  refine ⟨render_output_renderCalls H render ext output_path st page hu, ?_⟩
  intro r hr
  obtain ⟨r₀, rts, hroutes⟩ : ∃ r₀ rts, page.core.routes = r₀ :: rts := by
    cases hc : page.core.routes with
    | nil => rw [hc] at hlen; exact absurd hlen (by simp)
    | cons a l => exact ⟨a, l, rfl⟩
  have hcanon : outFilepath output_path ext page
      = output_path ++ [stripSlashes r₀] ++ [outFilename ext page] := by
    rw [outFilepath, routeDir, hroutes]
    rfl
  rw [render_output_eq, if_pos hu]
  show fsLookup (if 1 < page.core.routes.length then _ else _) _ = _
  rw [if_pos hlen]
  rw [hroutes] at hr
  rcases List.mem_cons.mp hr with rfl | hr'
  · rw [← hcanon]
    exact fold_copy_keeps (outFilepath output_path ext page)
      (fun r => output_path ++ [stripSlashes r] ++ [outFilename ext page]) (render page)
      (page.core.routes.drop 1) _
      (fsLookup_fsWrite_self st.fs (outFilepath output_path ext page) (render page)) _
      (fsLookup_fsWrite_self st.fs (outFilepath output_path ext page) (render page))
  · have hdrop : page.core.routes.drop 1 = rts := by rw [hroutes]; rfl
    exact fold_copy_covers (outFilepath output_path ext page)
      (fun r => output_path ++ [stripSlashes r] ++ [outFilename ext page]) (render page)
      (page.core.routes.drop 1) _
      (fsLookup_fsWrite_self st.fs (outFilepath output_path ext page) (render page))
      r (by rw [hdrop]; exact hr')

/-- C4 (code bug): `Collection.pages` binds `_pages = self.content_items`,
aliasing the stored mutable list, so a second access over the unchanged
content source returns every discovered page twice — the view accumulates
instead of being idempotent. -/
theorem c4_pages_accumulates :
    (Collection.pages mkP0 cfgOne []).1.map PageCore.slug = [S "a"] ∧
    (Collection.pages mkP0 cfgOne
        (Collection.pages mkP0 cfgOne []).2).1.map PageCore.slug = [S "a", S "a"] ∧
    (Collection.pages mkP0 cfgOne (Collection.pages mkP0 cfgOne []).2).1 ≠
      (Collection.pages mkP0 cfgOne []).1 := by
  refine ⟨?_, ?_, ?_⟩ <;> decide

/-- C9 counterexample: a collection whose content path does not exist but
which has archive generation enabled still contributes one route — its archive
page — so "contributes zero routes" fails as stated. -/
theorem c9_counterexample :
    cfgMissingArchive.content_path_exists = false ∧
    (Site.register_collection mkP0 base0 cfgMissingArchive [] []).1.length = 1 := by
  refine ⟨rfl, ?_⟩
  decide

/-- C9 (amended): a collection whose content path does not exist yields
exactly its seeded `content_items` — the empty list for an unseeded collection
— without error, and when it moreover has no archive and no feeds its
registration contributes zero routes to the registry. -/
theorem c9_missing_content_path (mkP : Str → PageCore) (base : PageCore)
    (cfg : CollectionCfg) (routes : List Page)
    (hmiss : cfg.content_path_exists = false)
    (harch : cfg.has_archive = false) (hfeeds : cfg.feeds = []) :
    (Collection.pages mkP cfg []).1 = [] ∧
    (Site.register_collection mkP base cfg [] routes).1 = routes := by
  have hp : Collection.pages mkP cfg [] = ([], []) := by
    unfold Collection.pages
    rw [if_pos hmiss]
  constructor
  · rw [hp]
  · unfold Site.register_collection
    rw [hp, harch, hfeeds]
    simp

/-- C10: the fingerprint depends only on the page's `base_content`: equal
`base_content` gives equal fingerprints; a page without the attribute is
fingerprinted as the empty string, so every content-less page (e.g. a
generated archive page) shares one and the same fingerprint. -/
theorem c10_fingerprint_base_content (H : Str → Str) (p q : Page) :
    (p.core.base_content = q.core.base_content →
      hash_content H p = hash_content H q) ∧
    (p.core.base_content = none →
      hash_content H p = H [] ++ ['\n']) ∧
    (p.core.base_content = none → q.core.base_content = none →
      hash_content H p = hash_content H q) := by
  refine ⟨fun h => ?_, fun h => ?_, fun h1 h2 => ?_⟩ <;> simp [hash_content, *]

/-- C5: `Collection.archive` builds exactly one page whose children (`pages`)
are the collection's pages from that access, sorted by the pluggable key
`archive_default_sort` (default: the slug), ascending when `archive_reverse`
is false and descending when true; the sort is stable (within one key value
the discovery order is kept), and the spec's slugs `["c","a","b"]` sort to
`["a","b","c"]`, reversed to `["c","b","a"]`. -/
theorem c5_archive_ordering (mkP : Str → PageCore) (base : PageCore)
    (cfg : CollectionCfg) (content_items : List PageCore) :
    ((Collection.archive mkP base cfg content_items).1.pages
        = pySorted strLt archive_default_sort cfg.archive_reverse
            (Collection.pages mkP cfg content_items).1) ∧
    List.Perm (Collection.archive mkP base cfg content_items).1.pages
      (Collection.pages mkP cfg content_items).1 ∧
    (cfg.archive_reverse = false →
      (Collection.archive mkP base cfg content_items).1.pages.Pairwise
        (fun a b => strLt (archive_default_sort b) (archive_default_sort a) = false)) ∧
    (cfg.archive_reverse = true →
      (Collection.archive mkP base cfg content_items).1.pages.Pairwise
        (fun a b => strLt (archive_default_sort a) (archive_default_sort b) = false)) ∧
    (∀ v, (Collection.archive mkP base cfg content_items).1.pages.filter
        (fun p => archive_default_sort p = v)
      = (Collection.pages mkP cfg content_items).1.filter
          (fun p => archive_default_sort p = v)) ∧
    (Collection.archive mkP0 base0 cfgCAB []).1.pages.map archive_default_sort
      = [S "a", S "b", S "c"] ∧
    (Collection.archive mkP0 base0 { cfgCAB with archive_reverse := true } []).1.pages.map
        archive_default_sort = [S "c", S "b", S "a"] := by
  have heq : (Collection.archive mkP base cfg content_items).1.pages
      = pySorted strLt archive_default_sort cfg.archive_reverse
          (Collection.pages mkP cfg content_items).1 := rfl
  refine ⟨heq, ?_, ?_, ?_, ?_, by decide, by decide⟩
  · rw [heq]
    exact perm_pySorted strLt archive_default_sort cfg.archive_reverse
      (Collection.pages mkP cfg content_items).1
  · intro hrev
    rw [heq, hrev]
    exact sorted_pySorted_asc strLt archive_default_sort
      (fun u v h => strLt_asymm h) (fun u v w h1 h2 => strLt_negtrans h1 h2)
      (Collection.pages mkP cfg content_items).1
  · intro hrev
    rw [heq, hrev]
    exact sorted_pySorted_desc strLt archive_default_sort
      (fun u v h => strLt_asymm h) (fun u v w h1 h2 => strLt_negtrans h1 h2)
      (Collection.pages mkP cfg content_items).1
  · intro v
    rw [heq]
    exact filter_pySorted strLt archive_default_sort strLt_irrefl cfg.archive_reverse
      (Collection.pages mkP cfg content_items).1 v

/-- Witness for C5: at the spec's example collection (ascending), the archive
children are sorted ascending by slug. -/
theorem c5_archive_ordering_witness :
    cfgCAB.archive_reverse = false ∧
    (Collection.archive mkP0 base0 cfgCAB []).1.pages.Pairwise
      (fun a b => strLt (archive_default_sort b) (archive_default_sort a) = false) :=
  ⟨rfl, (c5_archive_ordering mkP0 base0 cfgCAB []).2.2.1 rfl⟩

/-- C6: subcollection expansion sorts each grouping's subcollections in
descending order of `(member-page count, title)` — larger count first, equal
counts broken by the lexicographically larger title first — and appends the
subcollections' archive pages to the route registry in exactly that order;
at equal counts `x`/`y` the `y`-titled subcollection comes first. -/
theorem c6_subcollection_ordering (mkP : Str → PageCore) (base : PageCore)
    (groups : List (List SubCollection)) (routes : List Page) :
    Site.render_subcollections mkP base groups routes
      = routes ++ (groups.map
          (fun g => (sortSubcollections g).map (SubCollection.archivePage mkP base))).flatten ∧
    (∀ g : List SubCollection, List.Perm (sortSubcollections g) g) ∧
    (∀ g : List SubCollection, (sortSubcollections g).Pairwise
      (fun a b => b.pages.length < a.pages.length ∨
        (a.pages.length = b.pages.length ∧ strLt a.title b.title = false))) ∧
    (sortSubcollections
        [⟨S "x", [pc "p1", pc "p2"]⟩, ⟨S "y", [pc "p3", pc "p4"]⟩]).map
        SubCollection.title = [S "y", S "x"] := by
  refine ⟨foldl_append_flatten _ groups routes, ?_, ?_, by decide⟩
  · intro g
    exact perm_pySorted tupLt subKey true g
  · intro g
    have hs := sorted_pySorted_desc tupLt subKey
      (fun u v h => tupLt_asymm h) (fun u v w h1 h2 => tupLt_negtrans h1 h2) g
    exact hs.imp (fun h => tupLt_false_elim h)

/-- C7: the persisted cache round-trips: the cache file text is the
concatenation of the fingerprint records, each `'\n'`-terminated (a hex digest
plus newline, 41 characters); loading that text yields exactly the same set of
fingerprints; loading a missing file yields the empty set; and loading
tolerates appended blank lines — membership of any real fingerprint is
unaffected. -/
theorem c7_cache_roundtrip (hs : List Str) (hrec : ∀ h ∈ hs, NlRecord h) :
    (∀ y, y ∈ loadHashes (some (cacheFileText hs)) ↔ y ∈ hs) ∧
    loadHashes none = [] ∧
    (∀ k x, NlRecord x → 2 ≤ x.length →
      (x ∈ loadHashes (some (cacheFileText hs ++ List.replicate k '\n')) ↔ x ∈ hs)) ∧
    (∀ H page, HexDigest H →
      NlRecord (hash_content H page) ∧ (hash_content H page).length = 41) := by
  have hsplit : splitlinesKeepends (cacheFileText hs) = hs := by
    have h := splitlines_flatten_append hs [] hrec
    simpa [cacheFileText, splitlinesKeepends, splitlinesAux] using h
  refine ⟨?_, rfl, ?_, ?_⟩
  · intro y
    show y ∈ (splitlinesKeepends (cacheFileText hs)).dedup ↔ y ∈ hs
    rw [hsplit]
    exact List.mem_dedup
  · intro k x hx hlen
    have hsplit2 : splitlinesKeepends (cacheFileText hs ++ List.replicate k '\n')
        = hs ++ List.replicate k ['\n'] := by
      rw [cacheFileText, splitlines_flatten_append hs _ hrec, splitlines_blanks]
    show x ∈ (splitlinesKeepends (cacheFileText hs ++ List.replicate k '\n')).dedup ↔ x ∈ hs
    rw [hsplit2]
    constructor
    · intro hmem
      rcases List.mem_append.mp (List.mem_dedup.mp hmem) with hmem' | hmem'
      · exact hmem'
      · have hx1 := List.eq_of_mem_replicate hmem'
        rw [hx1] at hlen
        exact absurd hlen (by decide)
    · intro hmem
      exact List.mem_dedup.mpr (List.mem_append_left _ hmem)
  · intro H page hd
    have hnl : '\n' ∉ H (page.core.base_content.getD []) := by
      intro hmem
      have hc := (hd (page.core.base_content.getD [])).2 '\n' hmem
      exact absurd hc (by decide)
    refine ⟨⟨H (page.core.base_content.getD []), rfl, hnl⟩, ?_⟩
    show (H (page.core.base_content.getD []) ++ ['\n']).length = 41
    rw [List.length_append, (hd (page.core.base_content.getD [])).1]
    rfl

/-- Witness for C7 at a one-fingerprint set. -/
theorem c7_cache_roundtrip_witness :
    (∀ h ∈ hs0, NlRecord h) ∧
    (∀ y, y ∈ loadHashes (some (cacheFileText hs0)) ↔ y ∈ hs0) ∧
    loadHashes none = [] := by
  have hrec : ∀ h ∈ hs0, NlRecord h := by
    intro h hm
    have he : h = hash_content H0 (Page.ofCore base0) := by
      simpa [hs0] using hm
    rw [he]
    exact ⟨H0 [], rfl, by decide⟩
  exact ⟨hrec, (c7_cache_roundtrip hs0 hrec).1, (c7_cache_roundtrip hs0 hrec).2.1⟩

/-- C8: on a strict pass, the whole output tree is deleted and the in-memory
fingerprint set cleared before rendering; consequently — pages having
non-empty route lists, pairwise disjoint output paths, and static assets not
occupying page paths — every page in the registry is decided as needing a
write and written exactly once (as many engine invocations as registry
entries), whatever fingerprints were loaded from disk. -/
theorem c8_strict_full_rebuild (H : Str → Str) (render : Page → Str) (ext : Str)
    (mkP : Str → PageCore) (base : PageCore) (site : SiteCfg)
    (groups : List (List SubCollection)) (routes0 : List Page)
    (fs0 : FS) (hashes0 : List Str)
    (hroutes : ∀ pg ∈ Site.render_subcollections mkP base groups routes0,
      pg.core.routes ≠ [])
    (hdisj : (Site.render_subcollections mkP base groups routes0).Pairwise
      (PathsDisjoint site.output_path ext))
    (hstatic : ∀ pg ∈ Site.render_subcollections mkP base groups routes0,
      ∀ p ∈ pagePaths site.output_path ext pg, ∀ e ∈ site.staticFiles, e.1 ≠ p) :
    (∀ p : FsPath, site.output_path <+: p →
      fsLookup (fsRmtree fs0 site.output_path) p = none) ∧
    (Site.render H render ext mkP base site groups routes0 fs0 hashes0 false true).written
      = List.replicate (Site.render_subcollections mkP base groups routes0).length true ∧
    (Site.render H render ext mkP base site groups routes0 fs0 hashes0 false true).renderCalls
      = (Site.render_subcollections mkP base groups routes0).length := by
  obtain ⟨op, cf, sa, sd, sf⟩ := site
  have main : ∀ fs2 : FS,
      (∀ pg ∈ Site.render_subcollections mkP base groups routes0,
        ∀ p ∈ pagePaths op ext pg, fsLookup fs2 p = none) →
      (Site.renderLoop H render ext op ⟨fs2, [], 0⟩
          (Site.render_subcollections mkP base groups routes0)).2
        = List.replicate (Site.render_subcollections mkP base groups routes0).length true ∧
      (Site.renderLoop H render ext op ⟨fs2, [], 0⟩
          (Site.render_subcollections mkP base groups routes0)).1.renderCalls
        = (Site.render_subcollections mkP base groups routes0).length := by
    intro fs2 hfree
    have h := renderLoop_all_written H render ext op
      (Site.render_subcollections mkP base groups routes0) ⟨fs2, [], 0⟩
      hroutes hdisj hfree
    exact ⟨h.1, by simpa using h.2⟩
  have hfree_rm : ∀ pg ∈ Site.render_subcollections mkP base groups routes0,
      ∀ p ∈ pagePaths op ext pg, fsLookup (fsRmtree fs0 op) p = none :=
    fun pg _ p hp => fsLookup_fsRmtree_under fs0 op p (pagePaths_under_output hp)
  have hfree_st : ∀ pg ∈ Site.render_subcollections mkP base groups routes0,
      ∀ p ∈ pagePaths op ext pg,
        fsLookup (sf.foldl (fun fs e => fsWrite fs e.1 e.2) (fsRmtree fs0 op)) p
          = none := by
    intro pg hpg p hp
    rw [fsLookup_foldl_write_ne sf (fsRmtree fs0 op) p
      (fun e he => hstatic pg hpg p hp e he)]
    exact hfree_rm pg hpg p hp
  refine ⟨fun p hp => fsLookup_fsRmtree_under fs0 op p hp, ?_, ?_⟩
  · cases sa <;> cases sd <;>
      first
        | exact (main _ hfree_rm).1
        | exact (main _ hfree_st).1
  · cases sa <;> cases sd <;>
      first
        | exact (main _ hfree_rm).2
        | exact (main _ hfree_st).2

/-- Witness for C8: a strict pass over a populated output directory with the
first page's fingerprint pre-loaded still writes both pages. -/
theorem c8_strict_full_rebuild_witness :
    ((∀ pg ∈ Site.render_subcollections mkP0 base0 [] routesW, pg.core.routes ≠ []) ∧
     (Site.render_subcollections mkP0 base0 [] routesW).Pairwise
       (PathsDisjoint site0.output_path (S ".html")) ∧
     (∀ pg ∈ Site.render_subcollections mkP0 base0 [] routesW,
       ∀ p ∈ pagePaths site0.output_path (S ".html") pg,
         ∀ e ∈ site0.staticFiles, e.1 ≠ p)) ∧
    (Site.render H0 render0 (S ".html") mkP0 base0 site0 [] routesW fsW hashesW
        false true).written
      = List.replicate (Site.render_subcollections mkP0 base0 [] routesW).length true ∧
    (Site.render H0 render0 (S ".html") mkP0 base0 site0 [] routesW fsW hashesW
        false true).renderCalls
      = (Site.render_subcollections mkP0 base0 [] routesW).length :=
  ⟨⟨by decide, by decide, by decide⟩,
    (c8_strict_full_rebuild H0 render0 (S ".html") mkP0 base0 site0 [] routesW fsW hashesW
      (by decide) (by decide) (by decide)).2.1,
    (c8_strict_full_rebuild H0 render0 (S ".html") mkP0 base0 site0 [] routesW fsW hashesW
      (by decide) (by decide) (by decide)).2.2⟩

/-- Witness for C2 at a concrete always-refresh page. -/
theorem c2_always_refresh_cache_witness :
    pageR.core.always_refresh = true ∧
    ((Site.render_output H0 render0 (S ".html") [S "output"] st0 pageR).2 = true ∧
     (Site.render_output H0 render0 (S ".html") [S "output"] st0 pageR).1.hashes
        = st0.hashes ∧
     fsLookup (Site.render_output H0 render0 (S ".html") [S "output"] st0 pageR).1.fs
       (outFilepath [S "output"] (S ".html") pageR) = some (render0 pageR)) :=
  ⟨rfl, (c2_always_refresh_cache H0 render0 (S ".html") [S "output"] st0 pageR).1 rfl⟩

/-- Witness for C3 at a concrete two-route page over an empty output tree. -/
theorem c3_multi_route_replication_witness :
    (1 < pageN.core.routes.length ∧
     Site.is_unique H0 st0.hashes st0.fs
       (outFilepath [S "output"] (S ".html") pageN) pageN = true) ∧
    ((Site.render_output H0 render0 (S ".html") [S "output"] st0 pageN).1.renderCalls
        = st0.renderCalls + 1 ∧
     ∀ r ∈ pageN.core.routes,
       fsLookup (Site.render_output H0 render0 (S ".html") [S "output"] st0 pageN).1.fs
         ([S "output"] ++ [stripSlashes r] ++ [outFilename (S ".html") pageN])
         = some (render0 pageN)) :=
  ⟨⟨by decide, by decide⟩,
    c3_multi_route_replication H0 render0 (S ".html") [S "output"] st0 pageN
      (by decide) (by decide)⟩

/-- Witness for C9's amended statement at a concrete archive-less collection
with a missing content directory. -/
theorem c9_missing_content_path_witness :
    (cfgMissingPlain.content_path_exists = false ∧ cfgMissingPlain.has_archive = false ∧
     cfgMissingPlain.feeds = []) ∧
    ((Collection.pages mkP0 cfgMissingPlain []).1 = [] ∧
     (Site.register_collection mkP0 base0 cfgMissingPlain [] []).1 = []) :=
  ⟨⟨rfl, rfl, rfl⟩, c9_missing_content_path mkP0 base0 cfgMissingPlain [] rfl rfl rfl⟩

/-- Witness for C10 at a concrete content-less page. -/
theorem c10_fingerprint_base_content_witness :
    (Page.ofCore base0).core.base_content = none ∧
    hash_content H0 (Page.ofCore base0) = H0 [] ++ ['\n'] :=
  ⟨rfl, (c10_fingerprint_base_content H0 (Page.ofCore base0) (Page.ofCore base0)).2.1 rfl⟩

end RenderEngine
